import Mathlib

/-!
Verification of the NEON GEMM matrix-multiply kernel
(src/core/NEON/kernels/NEGEMMMatrixMultiplyKernel.cpp).

The kernel is embedded shallowly: element values are exact rationals,
buffers are flat maps from element addresses to values, windows carry the
per-dimension (start, end, step) ranges together with the worker metadata
used by the single-row path, and the C++ integer remainder is embedded as
the truncated remainder Int.tmod.
-/

namespace ArmCompute

/-- Element precision: the two supported floating kinds
(F32 is the wide kind, F16 the narrow kind). -/
inductive DataType
  | F16
  | F32
deriving DecidableEq

/-- data_size_from_type: element size in bytes. -/
def data_size_from_type : DataType → ℕ
  | .F16 => 2
  | .F32 => 4

/-- Error taxonomy of the kernel facade. -/
inductive KernelError
  | UnsupportedDataType
  | ConfigurationError
  | UnconfiguredKernelError
  | InvalidSubwindowError
  | NotImplemented
deriving DecidableEq

/-- One window dimension: the (start, end, step) range of a loop. -/
structure Dimension where
  start : ℤ
  stop : ℤ
  step : ℤ
deriving DecidableEq

/-- An iteration window over dimension 0 (columns) and dimension 1 (rows),
together with the worker metadata read by the single-row path. -/
structure Window where
  x : Dimension
  y : Dimension
  threadId : ℕ
  numThreads : ℕ
deriving DecidableEq

/-- Tensor metadata: extents of dimensions 0 and 1, the byte stride of
dimension 1, and the element precision.  Dimension 0 is contiguous
(element stride 1). -/
structure TensorDesc where
  dim0 : ℕ
  dim1 : ℕ
  stridesBytes1 : ℕ
  dtype : DataType
deriving DecidableEq

/-- A flat element buffer: the exact value held at each element address. -/
def Mem : Type := ℤ → ℚ

instance {ε α : Type} [DecidableEq ε] [DecidableEq α] : DecidableEq (Except ε α) := fun x y =>
  match x, y with
  | .ok a, .ok b =>
    if h : a = b then .isTrue (by rw [h]) else .isFalse (by simp [h])
  | .error a, .error b =>
    if h : a = b then .isTrue (by rw [h]) else .isFalse (by simp [h])
  | .ok _, .error _ => .isFalse (by simp)
  | .error _, .ok _ => .isFalse (by simp)

/-- Number of iterations of a loop that starts at start, runs while the
index is below stop, and advances by step. -/
def loopCount (start stop step : ℤ) : ℕ :=
  if 0 < step then ((stop - start + step - 1) / step).toNat else 0

/-- Dimension-0 range end computed by vector_matrix_multiply_f32 (line 61):
width_matrix_b + (step - ((width_matrix_b - start) % step)) % step, where %
is the truncated remainder of C++ integer arithmetic. -/
def windowEndX (widthB start step : ℤ) : ℤ :=
  widthB + Int.tmod (step - Int.tmod (widthB - start) step) step

/-- Dimension-0 start of the stripe of one worker on the single-row path
(line 58): 16 * thread_id. -/
def vmmStartX (threadId : ℕ) : ℤ := 16 * threadId

/-- Dimension-0 step of the stripe of one worker on the single-row path
(line 59): 16 * num_threads. -/
def vmmStepX (numThreads : ℕ) : ℤ := 16 * numThreads

/-- Dimension-0 end of the stripe of one worker on the single-row path. -/
def vmmEndX (widthB : ℕ) (threadId numThreads : ℕ) : ℤ :=
  windowEndX widthB (vmmStartX threadId) (vmmStepX numThreads)

/-- One reduction step of the single-row kernel: fused multiply-add of the
broadcast scalar vec_a[k] into all 16 accumulator lanes, lane j reading
matrix_b[j + k * in_b_stride] from the tile whose columns begin at bBase. -/
def vmlaStep (vecA matB : Mem) (inBStride bBase : ℤ) (k : ℕ) (acc : ℕ → ℚ) : ℕ → ℚ :=
  fun j => acc j + vecA k * matB (bBase + j + k * inBStride)

/-- Body of the 4-way unrolled main loop of the single-row kernel: four
consecutive reduction steps starting at index i (lines 102-146). -/
def vmlaChunk (vecA matB : Mem) (inBStride bBase : ℤ) (i : ℕ) (acc : ℕ → ℚ) : ℕ → ℚ :=
  vmlaStep vecA matB inBStride bBase (i + 3)
    (vmlaStep vecA matB inBStride bBase (i + 2)
      (vmlaStep vecA matB inBStride bBase (i + 1)
        (vmlaStep vecA matB inBStride bBase i acc)))

/-- The 16 accumulator lanes of the single-row kernel after the whole
reduction over K = num_elems_vec_a: zero-initialised accumulators, the
unrolled main loop over whole chunks of 4, then the remainder loop
(lines 94-161). -/
def vmmAccum (vecA matB : Mem) (inBStride bBase : ℤ) (K : ℕ) : ℕ → ℚ :=
  let main := (List.range (K / 4)).foldl
    (fun acc c => vmlaChunk vecA matB inBStride bBase (4 * c) acc) (fun _ => 0)
  (List.range (K % 4)).foldl
    (fun acc r => vmlaStep vecA matB inBStride bBase (4 * (K / 4) + r) acc) main

/-- Contiguous vector store of the given number of lanes at base. -/
def storeVec (base : ℤ) (width : ℕ) (v : ℕ → ℚ) (mem : Mem) : Mem :=
  fun addr => if base ≤ addr ∧ addr < base + width then v (addr - base).toNat else mem addr

/-- One iteration of the window loop of vector_matrix_multiply_f32 at tile
start column x: skipped entirely when x exceeds the output width (lines
89-92); otherwise the 16 accumulated lanes, scaled by alpha when requested,
are stored contiguously at out[x .. x+15]. -/
def vmmTileBody (vecA matB : Mem) (inBStride : ℤ) (K widthB : ℕ)
    (multiplyAlpha : Bool) (alpha : ℚ) (x : ℤ) (mem : Mem) : Mem :=
  if (widthB : ℤ) < x then mem
  else
    let acc := vmmAccum vecA matB inBStride x K
    let acc := if multiplyAlpha then fun j => acc j * alpha else acc
    storeVec x 16 acc mem

/-- vector_matrix_multiply_f32: the single-row (wide precision) kernel.  The
dimension-0 range of the incoming window is discarded and replaced by the
per-worker stripe computed from thread_id and num_threads (lines 58-64); the
loop then visits one 16-column tile per iteration. -/
def vector_matrix_multiply_f32 (vecA matB : Mem) (K : ℕ) (inBStride : ℤ)
    (widthB : ℕ) (window : Window) (multiplyAlpha : Bool) (alpha : ℚ) (mem : Mem) : Mem :=
  let startX : ℤ := vmmStartX window.threadId
  let stepX : ℤ := vmmStepX window.numThreads
  let endX : ℤ := windowEndX widthB startX stepX
  (List.range (loopCount startX endX stepX)).foldl
    (fun m j => vmmTileBody vecA matB inBStride K widthB multiplyAlpha alpha
      (startX + stepX * j) m) mem

/-- Accumulators of the full-matrix wide-precision kernel: one value per
(output row r, sub-block s, lane e).  Each iteration of the reduction loop
(lines 244-283) consumes 4 K-steps: lane (r, s, e) gains
matrix_b[bBase + s * in_b_stride + 4i + e] * matrix_a[aBase + 4i + r]. -/
def mmf32Accum (mtxA mtxB : Mem) (inBStride aBase bBase : ℤ) (numBx : ℕ) : ℕ → ℕ → ℕ → ℚ :=
  (List.range ((numBx + 3) / 4)).foldl
    (fun c i => fun r s e =>
      c r s e + mtxB (bBase + s * inBStride + 4 * i + e) * mtxA (aBase + 4 * i + r))
    (fun _ _ _ => 0)

/-- One tile of matrix_matrix_multiply_f32: accumulate over K, scale by
alpha when requested (lines 286-305), then store the 4 rows of 4 sub-blocks
of 4 lanes (lines 307-328), row r sub-block s at out + r * stride + 4s. -/
def mmf32TileBody (mtxA mtxB : Mem) (inBStride outStride : ℤ) (numBx : ℕ)
    (multiplyAlpha : Bool) (alpha : ℚ) (aBase bBase outBase : ℤ) (mem : Mem) : Mem :=
  let c := mmf32Accum mtxA mtxB inBStride aBase bBase numBx
  let c := if multiplyAlpha then fun r s e => c r s e * alpha else c
  (List.range 4).foldl (fun m (r : ℕ) =>
    (List.range 4).foldl (fun m (s : ℕ) =>
      storeVec (outBase + (r : ℤ) * outStride + 4 * (s : ℤ)) 4 (c r s) m) m) mem

/-- matrix_matrix_multiply_f32: the full-matrix wide-precision kernel.  The
loop visits the coordinates of the incoming window; tile base addresses
follow the iterator contract (base plus the sum of index times stride,
Modelled from the spec for the external Iterator and execute_window_loop):
matrix A advances one packed row-group per 4 output rows (window y start
divided by 4, per line 195), matrix B advances 4 transposed blocks per tile
(window x start divided by 4, step 4 * in_b_stride, per line 206). -/
def matrix_matrix_multiply_f32 (mtxA mtxB : Mem) (strideA1 inBStride outStride : ℤ)
    (numBx : ℕ) (window : Window) (multiplyAlpha : Bool) (alpha : ℚ) (mem : Mem) : Mem :=
  let nx := loopCount window.x.start window.x.stop window.x.step
  let ny := loopCount window.y.start window.y.stop window.y.step
  (List.range ny).foldl (fun m ty =>
    (List.range nx).foldl (fun m tx =>
      let outBase := (window.x.start + window.x.step * tx)
        + (window.y.start + window.y.step * ty) * outStride
      let aBase := (Int.tdiv window.y.start 4 + ty) * strideA1
      let bBase := Int.tdiv window.x.start 4 + tx * (4 * inBStride)
      mmf32TileBody mtxA mtxB inBStride outStride numBx multiplyAlpha alpha
        aBase bBase outBase m) m) mem

/-- Accumulators of the narrow-precision kernel: one 8-wide register per
output row r.  Each iteration of the reduction loop (lines 408-436) consumes
16 elements of packed A and 32 elements of transposed B, in four groups of
one broadcast A scalar against one 8-wide B vector per row. -/
def mmf16Accum (mtxA mtxB : Mem) (aBase bBase : ℤ) (numIt : ℕ) : ℕ → ℕ → ℚ :=
  (List.range numIt).foldl
    (fun c m => fun r e =>
      c r e + mtxB (bBase + 32 * m + e) * mtxA (aBase + 16 * m + r)
        + mtxB (bBase + 32 * m + 8 + e) * mtxA (aBase + 16 * m + 4 + r)
        + mtxB (bBase + 32 * m + 16 + e) * mtxA (aBase + 16 * m + 8 + r)
        + mtxB (bBase + 32 * m + 24 + e) * mtxA (aBase + 16 * m + 12 + r))
    (fun _ _ => 0)

/-- One tile of matrix_matrix_multiply_f16: the inner loop runs
(num_elems_matrix_b_x >> 2) >> 3 iterations (line 361), alpha scaling when
requested (lines 438-444), then the 4 rows of 8 lanes are stored at
out + row * out_stride (lines 446-449). -/
def mmf16TileBody (mtxA mtxB : Mem) (outStride : ℤ) (numBx : ℕ)
    (multiplyAlpha : Bool) (alpha : ℚ) (aBase bBase outBase : ℤ) (mem : Mem) : Mem :=
  let c := mmf16Accum mtxA mtxB aBase bBase ((numBx >>> 2) >>> 3)
  let c := if multiplyAlpha then fun r e => c r e * alpha else c
  (List.range 4).foldl (fun m (r : ℕ) =>
    storeVec (outBase + (r : ℤ) * outStride) 8 (c r) m) mem

/-- matrix_matrix_multiply_f16: the full-matrix narrow-precision kernel,
hardware-gated: without the narrow-precision capability the body is a fatal
NotImplemented error (lines 452-454).  Addressing follows the same iterator
contract as the wide kernel, with matrix B advancing one 8-wide transposed
block per tile (window x start divided by 8, step in_b_stride, line 353). -/
def matrix_matrix_multiply_f16 (fp16Enabled : Bool) (mtxA mtxB : Mem)
    (strideA1 inBStride outStride : ℤ) (numBx : ℕ) (window : Window)
    (multiplyAlpha : Bool) (alpha : ℚ) (mem : Mem) : Except KernelError Mem :=
  if fp16Enabled then
    let nx := loopCount window.x.start window.x.stop window.x.step
    let ny := loopCount window.y.start window.y.stop window.y.step
    .ok ((List.range ny).foldl (fun m ty =>
      (List.range nx).foldl (fun m tx =>
        let outBase := (window.x.start + window.x.step * tx)
          + (window.y.start + window.y.step * ty) * outStride
        let aBase := (Int.tdiv window.y.start 4 + ty) * strideA1
        let bBase := Int.tdiv window.x.start 8 + tx * inBStride
        mmf16TileBody mtxA mtxB outStride numBx multiplyAlpha alpha
          aBase bBase outBase m) m) mem)
  else .error .NotImplemented

/-- The stored kernel configuration: the three tensor descriptions, the
alpha weight, and the canonical window computed at configure time. -/
structure GEMMConfig where
  input0 : TensorDesc
  input1 : TensorDesc
  output : TensorDesc
  alpha : ℚ
  window : Window
deriving DecidableEq

/-- Modelled from the spec: calculate_max_window is an external collaborator
(the access-window calculator); per section 4.2 it returns the canonical
window covering the full output with each extent rounded up to whole tiles,
starting at 0, with single-worker metadata. -/
def calculate_max_window (output : TensorDesc) (stepX stepY : ℕ) : Window :=
  { x := ⟨0, (((output.dim0 + stepX - 1) / stepX) * stepX : ℕ), (stepX : ℕ)⟩
    y := ⟨0, (((output.dim1 + stepY - 1) / stepY) * stepY : ℕ), (stepY : ℕ)⟩
    threadId := 0
    numThreads := 1 }

/-- Modelled from the spec: the containment check of the external Window
contract, used by run for the sub-window validation: the sub-window range of
each dimension must lie inside the canonical range. -/
def windowContained (w parent : Window) : Bool :=
  decide (parent.x.start ≤ w.x.start ∧ w.x.stop ≤ parent.x.stop ∧
    parent.y.start ≤ w.y.start ∧ w.y.stop ≤ parent.y.stop)

/-- The alpha-scaling decision recomputed by run (line 543):
abs (1.0 - alpha) > 0.00001. -/
def run_multiply_alpha (alpha : ℚ) : Bool := decide (|1 - alpha| > 1 / 100000)

namespace NEGEMMMatrixMultiplyKernel

/-- configure (lines 463-536): the data types of the three tensors must
agree (else ConfigurationError); with a single-row output the inner
dimension of A must equal the row count of B; the single-row wide-precision
case selects 16-wide 1-tall tiles, every other case selects 4-tall tiles of
width 8 (narrow) or 16 (wide).  Both precision kinds of the embedding are
supported ones, so the UnsupportedDataType arms of the source (lines 465-467
and 515-519) are unreachable here. -/
def configure (input0 input1 output : TensorDesc) (alpha : ℚ) :
    Except KernelError GEMMConfig :=
  if input0.dtype ≠ input1.dtype ∨ input0.dtype ≠ output.dtype then
    .error .ConfigurationError
  else if output.dim1 = 1 ∧ input0.dim0 ≠ input1.dim1 then
    .error .ConfigurationError
  else if output.dim1 = 1 ∧ input0.dtype = .F32 then
    .ok ⟨input0, input1, output, alpha, calculate_max_window output 16 1⟩
  else
    let stepX : ℕ := match input0.dtype with | .F16 => 8 | .F32 => 16
    .ok ⟨input0, input1, output, alpha, calculate_max_window output stepX 4⟩

/-- run (lines 538-592).  The unconfigured-kernel and invalid-sub-window
guards are Modelled from the spec (the guard macros are external): run fails
with UnconfiguredKernelError before a successful configure, and with
InvalidSubwindowError when the window is not contained in the canonical
window; both failures precede any dispatch.  Otherwise run recomputes the
alpha-scaling decision and dispatches on the stored precision and
output-shape class. -/
def run (fp16Enabled : Bool) (st : Option GEMMConfig) (mtxA mtxB : Mem)
    (window : Window) (mem : Mem) : Except KernelError Mem :=
  match st with
  | none => .error .UnconfiguredKernelError
  | some cfg =>
    if ¬ windowContained window cfg.window then .error .InvalidSubwindowError
    else
      let multiplyAlpha := run_multiply_alpha cfg.alpha
      let inBStride : ℤ :=
        ((cfg.input1.stridesBytes1 / data_size_from_type cfg.input1.dtype : ℕ) : ℤ)
      let outStride : ℤ :=
        ((cfg.output.stridesBytes1 / data_size_from_type cfg.output.dtype : ℕ) : ℤ)
      let strideA1 : ℤ :=
        ((cfg.input0.stridesBytes1 / data_size_from_type cfg.input0.dtype : ℕ) : ℤ)
      if cfg.output.dim1 = 1 ∧ cfg.input0.dtype = .F32 then
        .ok (vector_matrix_multiply_f32 mtxA mtxB cfg.input0.dim0 inBStride
          cfg.output.dim0 window multiplyAlpha cfg.alpha mem)
      else
        match cfg.input0.dtype with
        | .F16 => matrix_matrix_multiply_f16 fp16Enabled mtxA mtxB strideA1
            inBStride outStride cfg.input1.dim0 window multiplyAlpha cfg.alpha mem
        | .F32 => .ok (matrix_matrix_multiply_f32 mtxA mtxB strideA1 inBStride
            outStride cfg.input1.dim0 window multiplyAlpha cfg.alpha mem)

end NEGEMMMatrixMultiplyKernel

theorem windowEndX_bounds (W start step : ℤ) (hstep : 0 < step) :
    W ≤ windowEndX W start step ∧ windowEndX W start step < W + step := by
  have hr : Int.tmod (W - start) step < step := Int.tmod_lt_of_pos _ hstep
  have h1 : 0 ≤ step - Int.tmod (W - start) step := by omega
  have he : Int.tmod (step - Int.tmod (W - start) step) step
      = (step - Int.tmod (W - start) step) % step := Int.tmod_eq_emod h1 (le_of_lt hstep)
  have h2 : 0 ≤ (step - Int.tmod (W - start) step) % step :=
    Int.emod_nonneg _ (ne_of_gt hstep)
  have h3 : (step - Int.tmod (W - start) step) % step < step :=
    Int.emod_lt_of_pos _ hstep
  unfold windowEndX
  omega

theorem windowEndX_dvd (W start step : ℤ) (hstep : 0 < step) :
    step ∣ windowEndX W start step - start := by
  have hr : Int.tmod (W - start) step < step := Int.tmod_lt_of_pos _ hstep
  have h1 : 0 ≤ step - Int.tmod (W - start) step := by omega
  have he : Int.tmod (step - Int.tmod (W - start) step) step
      = (step - Int.tmod (W - start) step) % step := Int.tmod_eq_emod h1 (le_of_lt hstep)
  have d1 : step ∣ (W - start) - Int.tmod (W - start) step := by
    refine ⟨Int.tdiv (W - start) step, ?_⟩
    have := Int.tmod_add_tdiv (W - start) step
    linarith
  have d2 : step ∣ (step - Int.tmod (W - start) step)
      - (step - Int.tmod (W - start) step) % step := by
    refine ⟨(step - Int.tmod (W - start) step) / step, ?_⟩
    have := Int.ediv_add_emod (step - Int.tmod (W - start) step) step
    linarith
  have key : windowEndX W start step - start
      = ((W - start) - Int.tmod (W - start) step)
        - ((step - Int.tmod (W - start) step)
            - (step - Int.tmod (W - start) step) % step) + step := by
    unfold windowEndX
    rw [he]
    ring
  rw [key]
  exact dvd_add (dvd_sub d1 d2) dvd_rfl

theorem windowEndX_least (W start step e : ℤ) (hstep : 0 < step)
    (hW : W ≤ e) (hdvd : step ∣ e - start) : windowEndX W start step ≤ e := by
  have hb := windowEndX_bounds W start step hstep
  have hd : step ∣ e - windowEndX W start step := by
    have h2 := windowEndX_dvd W start step hstep
    have : e - windowEndX W start step
        = (e - start) - (windowEndX W start step - start) := by ring
    rw [this]
    exact dvd_sub hdvd h2
  by_contra hlt
  push_neg at hlt
  have hpos : 0 < windowEndX W start step - e := by omega
  have hdvd2 : step ∣ windowEndX W start step - e := by
    have h3 : -(e - windowEndX W start step) = windowEndX W start step - e := by ring
    rw [← h3]
    exact dvd_neg.mpr hd
  have := Int.le_of_dvd hpos hdvd2
  omega

/-- C3: on the vector-output path the iteration range of worker t of P
starts at 16 t and steps by 16 P, and its computed end is the least integer
at or above the output width W whose distance from 16 t is a multiple of
16 P (so the stride-aligned iteration count matches an unpartitioned pass
over the columns from 16 t to W). -/
theorem vmm_window_end_least (W t P : ℕ) (htP : t < P) :
    vmmStartX t = 16 * t ∧ vmmStepX P = 16 * P ∧
    (W : ℤ) ≤ vmmEndX W t P ∧ (16 * (P : ℤ)) ∣ (vmmEndX W t P - 16 * t) ∧
    ∀ e : ℤ, (W : ℤ) ≤ e → (16 * (P : ℤ)) ∣ (e - 16 * t) → vmmEndX W t P ≤ e := by
  have hstep : (0 : ℤ) < 16 * P := by
    have : 0 < P := Nat.pos_of_ne_zero (by omega)
    positivity
  have hb := windowEndX_bounds (W : ℤ) (16 * t) (16 * P) hstep
  have hd := windowEndX_dvd (W : ℤ) (16 * t) (16 * P) hstep
  refine ⟨rfl, rfl, ?_, ?_, ?_⟩
  · exact hb.1
  · exact hd
  · intro e he hdvd
    exact windowEndX_least (W : ℤ) (16 * t) (16 * P) e hstep he hdvd

/-- C3 witness: worker 1 of 2 on a width-20 output gets the range
[16, 48) with step 32. -/
theorem vmm_window_end_least_spot :
    (1 < 2) ∧ (vmmEndX 20 1 2 = 48 ∧ ((20 : ℤ) ≤ vmmEndX 20 1 2 ∧
      (16 * (2 : ℤ)) ∣ (vmmEndX 20 1 2 - 16 * 1))) :=
  ⟨by decide, by decide, (vmm_window_end_least 20 1 2 (by decide)).2.2.1,
    (vmm_window_end_least 20 1 2 (by decide)).2.2.2.1⟩

/-- C4: a 16-aligned column-tile start 16 m below the output width W lies in
the stripe of worker t (the arithmetic progression from 16 t with step 16 P,
below the computed end) exactly when t is the residue of the tile index
modulo the worker count, so each such column tile is visited by exactly one
worker. -/
theorem vmm_column_partition (W t P m : ℕ) (hP : 1 ≤ P) (ht : t < P)
    (hm : 16 * m < W) :
    (∃ j : ℕ, 16 * m = 16 * t + 16 * P * j ∧ ((16 * m : ℕ) : ℤ) < vmmEndX W t P)
      ↔ t = (16 * m / 16) % P := by
  have hdiv : 16 * m / 16 = m := Nat.mul_div_cancel_left m (by norm_num)
  rw [hdiv]
  constructor
  · rintro ⟨j, hj, -⟩
    have h16 : 16 * m = 16 * (t + P * j) := by rw [hj]; ring
    have hmj : m = t + P * j := Nat.eq_of_mul_eq_mul_left (by norm_num) h16
    rw [hmj, Nat.add_mul_mod_self_left, Nat.mod_eq_of_lt ht]
  · intro hres
    refine ⟨m / P, ?_, ?_⟩
    · have h2 : t + P * (m / P) = m := by
        rw [hres]
        exact Nat.mod_add_div m P
      calc 16 * m = 16 * (t + P * (m / P)) := by rw [h2]
        _ = 16 * t + 16 * P * (m / P) := by ring
    · have hstep : (0 : ℤ) < 16 * P := by positivity
      have hb := windowEndX_bounds (W : ℤ) (16 * t) (16 * P) hstep
      have hWle : ((16 * m : ℕ) : ℤ) < (W : ℤ) := by exact_mod_cast hm
      calc ((16 * m : ℕ) : ℤ) < (W : ℤ) := hWle
        _ ≤ vmmEndX W t P := hb.1

/-- C4 witness: with two workers and width 64, the tile starting at column
48 (tile index 3) is visited exactly by worker 1 = 3 mod 2. -/
theorem vmm_column_partition_spot :
    (1 ≤ 2 ∧ 1 < 2 ∧ 16 * 3 < 64) ∧
    ((∃ j : ℕ, 16 * 3 = 16 * 1 + 16 * 2 * j ∧ ((16 * 3 : ℕ) : ℤ) < vmmEndX 64 1 2)
      ↔ 1 = (16 * 3 / 16) % 2) :=
  ⟨by decide, vmm_column_partition 64 1 2 3 (by decide) (by decide) (by decide)⟩

/-- C5 counterexample: with output width 16 (a non-empty operation) and two
workers, worker 1 is assigned the empty range [16, 16) with step 32: its
start equals its end and the loop runs zero iterations. -/
theorem vmm_range_empty_cex :
    (16 : ℕ) ≠ 0 ∧ vmmEndX 16 1 2 = vmmStartX 1 ∧
      loopCount (vmmStartX 1) (vmmEndX 16 1 2) (vmmStepX 2) = 0 := by decide

/-- C5 (amended): the assigned range of worker t is non-empty whenever the
worker start column 16 t lies below the output width W; a worker whose
start column is at or beyond W receives an empty range even when the
operation itself is non-empty. -/
theorem vmm_range_nonempty (W t P : ℕ) (ht : t < P) (h : 16 * t < W) :
    vmmStartX t < vmmEndX W t P ∧
      1 ≤ loopCount (vmmStartX t) (vmmEndX W t P) (vmmStepX P) := by
  have hP : 0 < P := by omega
  have hstep : (0 : ℤ) < 16 * P := by positivity
  have hb := windowEndX_bounds (W : ℤ) (16 * t) (16 * P) hstep
  have hlt : vmmStartX t < vmmEndX W t P := by
    have h1 : (16 * t : ℤ) < (W : ℤ) := by exact_mod_cast h
    have : (16 * t : ℤ) < vmmEndX W t P := lt_of_lt_of_le h1 hb.1
    simpa [vmmStartX] using this
  refine ⟨hlt, ?_⟩
  unfold loopCount
  have hstep2 : (0 : ℤ) < vmmStepX P := by
    simpa [vmmStepX] using hstep
  rw [if_pos hstep2]
  have hnum : vmmStepX P ≤ vmmEndX W t P - vmmStartX t + vmmStepX P - 1 := by
    have : 1 ≤ vmmEndX W t P - vmmStartX t := by omega
    omega
  have hq : (1 : ℤ) ≤ (vmmEndX W t P - vmmStartX t + vmmStepX P - 1) / vmmStepX P := by
    rw [Int.le_ediv_iff_mul_le hstep2]
    omega
  omega

/-- C5 amended-claim witness: worker 1 of 2 on a width-20 output has a
non-empty range. -/
theorem vmm_range_nonempty_spot :
    (1 < 2 ∧ 16 * 1 < 20) ∧
    (vmmStartX 1 < vmmEndX 20 1 2 ∧
      1 ≤ loopCount (vmmStartX 1) (vmmEndX 20 1 2) (vmmStepX 2)) :=
  ⟨by decide, vmm_range_nonempty 20 1 2 (by decide) (by decide)⟩

theorem sum_range_split (f : ℕ → ℚ) (a b : ℕ) :
    ∑ k ∈ Finset.range a, f k + ∑ r ∈ Finset.range b, f (a + r)
      = ∑ k ∈ Finset.range (a + b), f k := by
  induction b with
  | zero => simp
  | succ n ih =>
    have hs : a + (n + 1) = (a + n) + 1 := by ring
    rw [Finset.sum_range_succ, ← add_assoc, ih, hs, Finset.sum_range_succ]

theorem vmlaChunk_apply (vecA matB : Mem) (inBStride bBase : ℤ) (i : ℕ)
    (acc : ℕ → ℚ) (j : ℕ) :
    vmlaChunk vecA matB inBStride bBase i acc j
      = acc j + (vecA i * matB (bBase + j + i * inBStride)
        + vecA (i + 1) * matB (bBase + j + ((i + 1 : ℕ) : ℤ) * inBStride)
        + vecA (i + 2) * matB (bBase + j + ((i + 2 : ℕ) : ℤ) * inBStride)
        + vecA (i + 3) * matB (bBase + j + ((i + 3 : ℕ) : ℤ) * inBStride)) := by
  simp only [vmlaChunk, vmlaStep]
  push_cast
  ring

theorem vmmMain_apply (vecA matB : Mem) (inBStride bBase : ℤ) (n : ℕ)
    (acc : ℕ → ℚ) (j : ℕ) :
    ((List.range n).foldl
        (fun acc c => vmlaChunk vecA matB inBStride bBase (4 * c) acc) acc) j
      = acc j + ∑ k ∈ Finset.range (4 * n),
          vecA k * matB (bBase + j + k * inBStride) := by
  induction n generalizing acc with
  | zero => simp
  | succ n ih =>
    rw [List.range_succ, List.foldl_append]
    simp only [List.foldl_cons, List.foldl_nil]
    rw [vmlaChunk_apply, ih]
    have h4 : 4 * (n + 1) = 4 * n + 1 + 1 + 1 + 1 := by ring
    rw [h4, Finset.sum_range_succ, Finset.sum_range_succ, Finset.sum_range_succ,
      Finset.sum_range_succ]
    push_cast
    ring

theorem vmmRem_apply (vecA matB : Mem) (inBStride bBase : ℤ) (base s : ℕ)
    (acc : ℕ → ℚ) (j : ℕ) :
    ((List.range s).foldl
        (fun acc r => vmlaStep vecA matB inBStride bBase (base + r) acc) acc) j
      = acc j + ∑ r ∈ Finset.range s,
          vecA (((base + r : ℕ)) : ℤ)
            * matB (bBase + j + ((base + r : ℕ) : ℤ) * inBStride) := by
  induction s generalizing acc with
  | zero => simp
  | succ s ih =>
    rw [List.range_succ, List.foldl_append]
    simp only [List.foldl_cons, List.foldl_nil]
    simp only [vmlaStep]
    rw [ih, Finset.sum_range_succ]
    ring

/-- Per-lane value of the whole reduction of the single-row kernel: the
unrolled main loop followed by the remainder loop computes the exact dot
product of vec_a against column bBase + j of matrix B. -/
theorem vmmAccum_eq_sum (vecA matB : Mem) (inBStride bBase : ℤ) (K : ℕ) (j : ℕ) :
    vmmAccum vecA matB inBStride bBase K j
      = ∑ k ∈ Finset.range K, vecA k * matB (bBase + j + k * inBStride) := by
  simp only [vmmAccum]
  rw [vmmRem_apply, vmmMain_apply]
  have h := sum_range_split
    (fun k => vecA k * matB (bBase + j + (k : ℤ) * inBStride)) (4 * (K / 4)) (K % 4)
  simp only [zero_add]
  rw [h, Nat.div_add_mod]

/-- C7: the lane value stored by a non-skipped tile of the vector path under
the alpha decision recomputed by run equals the accumulated dot product
multiplied by alpha exactly when the recomputed decision
abs (1 - alpha) > 1e-5 holds, and equals the raw accumulated sum with no
alpha multiplication otherwise. -/
theorem alpha_scaling_decision (vecA matB : Mem) (inBStride : ℤ) (K widthB : ℕ)
    (alpha : ℚ) (x : ℤ) (mem : Mem) (j : ℕ) (hj : j < 16) (hx : x ≤ (widthB : ℤ)) :
    vmmTileBody vecA matB inBStride K widthB (run_multiply_alpha alpha) alpha x mem (x + j)
      = (if |1 - alpha| > 1 / 100000 then alpha else 1)
        * ∑ k ∈ Finset.range K, vecA k * matB (x + j + k * inBStride) := by
  have hskip : ¬ ((widthB : ℤ) < x) := not_lt.mpr hx
  have hin : x ≤ x + (j : ℤ) ∧ x + (j : ℤ) < x + ((16 : ℕ) : ℤ) := by
    constructor <;> (push_cast; omega)
  have hton : (x + (j : ℤ) - x).toNat = j := by omega
  cases hb : run_multiply_alpha alpha with
  | true =>
    have hα : |1 - alpha| > 1 / 100000 := of_decide_eq_true hb
    rw [if_pos hα]
    simp only [vmmTileBody, if_neg hskip, if_true, storeVec]
    rw [if_pos hin, hton, vmmAccum_eq_sum]
    ring
  | false =>
    have hα : ¬ (|1 - alpha| > 1 / 100000) := of_decide_eq_false hb
    rw [if_neg hα]
    simp only [vmmTileBody, if_neg hskip, Bool.false_eq_true, if_false, storeVec]
    rw [if_pos hin, hton, vmmAccum_eq_sum]
    ring

/-- C7 witness: a concrete non-skipped tile at column 0, lane 0, with
alpha = 1 (decision false) over a length-1 reduction. -/
theorem alpha_scaling_decision_spot :
    ((0 : ℕ) < 16 ∧ (0 : ℤ) ≤ ((16 : ℕ) : ℤ)) ∧
    vmmTileBody (fun _ => 2) (fun _ => 3) 16 1 16 (run_multiply_alpha 1) 1 0
        (fun _ => 0) (0 + (0 : ℕ))
      = (if |1 - (1 : ℚ)| > 1 / 100000 then 1 else 1)
        * ∑ k ∈ Finset.range 1, (fun (_ : ℤ) => (2 : ℚ)) k
            * (fun (_ : ℤ) => (3 : ℚ)) (0 + (0 : ℕ) + k * 16) :=
  ⟨by norm_num,
    alpha_scaling_decision (fun _ => 2) (fun _ => 3) 16 1 16 1 0 (fun _ => 0) 0
      (by norm_num) (by norm_num)⟩

/-- C8: a column tile whose start column exceeds the output width is skipped
entirely by the wide-precision vector path: the tile body performs no store
and returns the memory unchanged, so that output region is untouched. -/
theorem vmm_skipped_tile_untouched (vecA matB : Mem) (inBStride : ℤ) (K widthB : ℕ)
    (multiplyAlpha : Bool) (alpha : ℚ) (x : ℤ) (mem : Mem) (h : (widthB : ℤ) < x) :
    vmmTileBody vecA matB inBStride K widthB multiplyAlpha alpha x mem = mem := by
  simp [vmmTileBody, h]

/-- C8 witness: a tile starting at column 32 on a width-16 output writes
nothing. -/
theorem vmm_skipped_tile_untouched_spot :
    (((16 : ℕ) : ℤ) < 32) ∧
    vmmTileBody (fun _ => 5) (fun _ => 7) 16 4 16 true 2 32 (fun _ => 11)
      = (fun _ => (11 : ℚ)) :=
  ⟨by norm_num,
    vmm_skipped_tile_untouched (fun _ => 5) (fun _ => 7) 16 4 16 true 2 32
      (fun _ => 11) (by norm_num)⟩

/-- C1: Scenario A.  A is the 1 by 8 row vector (0..7), B the 8 by 16
matrix with ones on the diagonal of the first 8 columns and zeros elsewhere
(flat row-major addresses 17 k for k < 8), alpha = 1.  Running the
configured kernel over the full canonical window with one worker writes
exactly [0,1,2,3,4,5,6,7,0,0,0,0,0,0,0,0] into the output row. -/
theorem scenarioA_output :
    (NEGEMMMatrixMultiplyKernel.run true
        ((NEGEMMMatrixMultiplyKernel.configure ⟨8, 1, 32, .F32⟩ ⟨16, 8, 64, .F32⟩
          ⟨16, 1, 64, .F32⟩ 1).toOption)
        (fun k => if 0 ≤ k ∧ k < 8 then (k : ℚ) else 0)
        (fun n => if n = 0 ∨ n = 17 ∨ n = 34 ∨ n = 51 ∨ n = 68 ∨ n = 85 ∨ n = 102 ∨ n = 119
          then 1 else 0)
        ⟨⟨0, 16, 16⟩, ⟨0, 1, 1⟩, 0, 1⟩
        (fun _ => 99)).map (fun m => (List.range 16).map fun j => m (j : ℤ))
      = .ok [0, 1, 2, 3, 4, 5, 6, 7, 0, 0, 0, 0, 0, 0, 0, 0] := by decide!

/-- C9: run invoked on an unconfigured kernel fails with
UnconfiguredKernelError for every window and memory; the error is produced
before any kernel body is dispatched, so no memory is returned or written. -/
theorem run_before_configure (fp16Enabled : Bool) (mtxA mtxB : Mem)
    (window : Window) (mem : Mem) :
    NEGEMMMatrixMultiplyKernel.run fp16Enabled none mtxA mtxB window mem
      = .error .UnconfiguredKernelError := rfl

/-- C10: on the wide-precision vector path the written output is determined
by the worker metadata of the window together with the stored configuration:
two valid sub-windows agreeing on thread_id and num_threads produce
identical output memory whatever their dimension-0 ranges, because the
kernel discards and recomputes the dimension-0 range. -/
theorem run_discards_dim0_range (fp16Enabled : Bool) (cfg : GEMMConfig)
    (mtxA mtxB mem : Mem) (w1 w2 : Window)
    (hvec : cfg.output.dim1 = 1) (hf32 : cfg.input0.dtype = .F32)
    (hc1 : windowContained w1 cfg.window = true)
    (hc2 : windowContained w2 cfg.window = true)
    (ht : w1.threadId = w2.threadId) (hn : w1.numThreads = w2.numThreads) :
    NEGEMMMatrixMultiplyKernel.run fp16Enabled (some cfg) mtxA mtxB w1 mem
      = NEGEMMMatrixMultiplyKernel.run fp16Enabled (some cfg) mtxA mtxB w2 mem := by
  simp only [NEGEMMMatrixMultiplyKernel.run, hc1, hc2, not_true, if_false,
    vector_matrix_multiply_f32, ht, hn, hvec, hf32, and_self, if_true]

/-- C10 witness: two windows over the same configuration whose dimension-0
ranges differ but whose worker metadata agree yield the same run result. -/
theorem run_discards_dim0_range_spot :
    (windowContained ⟨⟨0, 16, 16⟩, ⟨0, 1, 1⟩, 0, 1⟩
        (calculate_max_window ⟨16, 1, 64, .F32⟩ 16 1) = true
      ∧ windowContained ⟨⟨0, 0, 16⟩, ⟨0, 1, 1⟩, 0, 1⟩
        (calculate_max_window ⟨16, 1, 64, .F32⟩ 16 1) = true) ∧
    NEGEMMMatrixMultiplyKernel.run true
        (some ⟨⟨8, 1, 32, .F32⟩, ⟨16, 8, 64, .F32⟩, ⟨16, 1, 64, .F32⟩, 1,
          calculate_max_window ⟨16, 1, 64, .F32⟩ 16 1⟩)
        (fun _ => 2) (fun _ => 3) ⟨⟨0, 16, 16⟩, ⟨0, 1, 1⟩, 0, 1⟩ (fun _ => 0)
      = NEGEMMMatrixMultiplyKernel.run true
        (some ⟨⟨8, 1, 32, .F32⟩, ⟨16, 8, 64, .F32⟩, ⟨16, 1, 64, .F32⟩, 1,
          calculate_max_window ⟨16, 1, 64, .F32⟩ 16 1⟩)
        (fun _ => 2) (fun _ => 3) ⟨⟨0, 0, 16⟩, ⟨0, 1, 1⟩, 0, 1⟩ (fun _ => 0) :=
  ⟨⟨by decide, by decide⟩,
    run_discards_dim0_range true _ (fun _ => 2) (fun _ => 3) (fun _ => 0)
      ⟨⟨0, 16, 16⟩, ⟨0, 1, 1⟩, 0, 1⟩ ⟨⟨0, 0, 16⟩, ⟨0, 1, 1⟩, 0, 1⟩
      rfl rfl (by decide) (by decide) rfl rfl⟩

theorem storeVec_at (base : ℤ) (width : ℕ) (v : ℕ → ℚ) (mem : Mem) (addr : ℤ)
    (h : base ≤ addr ∧ addr < base + width) :
    storeVec base width v mem addr = v (addr - base).toNat := by
  simp only [storeVec, if_pos h]

theorem storeVec_out (base : ℤ) (width : ℕ) (v : ℕ → ℚ) (mem : Mem) (addr : ℤ)
    (h : ¬(base ≤ addr ∧ addr < base + width)) :
    storeVec base width v mem addr = mem addr := by
  simp only [storeVec, if_neg h]

theorem mmf16TileBody_unfold (mtxA mtxB : Mem) (outStride : ℤ) (numBx : ℕ)
    (multiplyAlpha : Bool) (alpha : ℚ) (aBase bBase outBase : ℤ) (mem : Mem) :
    mmf16TileBody mtxA mtxB outStride numBx multiplyAlpha alpha aBase bBase outBase mem
      = storeVec (outBase + 3 * outStride) 8
          ((if multiplyAlpha
            then fun r e => mmf16Accum mtxA mtxB aBase bBase ((numBx >>> 2) >>> 3) r e * alpha
            else mmf16Accum mtxA mtxB aBase bBase ((numBx >>> 2) >>> 3)) 3)
          (storeVec (outBase + 2 * outStride) 8
            ((if multiplyAlpha
              then fun r e => mmf16Accum mtxA mtxB aBase bBase ((numBx >>> 2) >>> 3) r e * alpha
              else mmf16Accum mtxA mtxB aBase bBase ((numBx >>> 2) >>> 3)) 2)
            (storeVec (outBase + 1 * outStride) 8
              ((if multiplyAlpha
                then fun r e => mmf16Accum mtxA mtxB aBase bBase ((numBx >>> 2) >>> 3) r e * alpha
                else mmf16Accum mtxA mtxB aBase bBase ((numBx >>> 2) >>> 3)) 1)
              (storeVec (outBase + 0 * outStride) 8
                ((if multiplyAlpha
                  then fun r e => mmf16Accum mtxA mtxB aBase bBase ((numBx >>> 2) >>> 3) r e * alpha
                  else mmf16Accum mtxA mtxB aBase bBase ((numBx >>> 2) >>> 3)) 0)
                mem))) := by
  simp only [mmf16TileBody, List.range_succ, List.range_zero, List.nil_append,
    List.foldl_append, List.foldl_cons, List.foldl_nil]
  norm_num

/-- C2 counterexample: configuring an 8-row narrow-precision output selects
a canonical window with dimension-0 step 8, not the claimed 32. -/
theorem narrow_tile_width_cex :
    (NEGEMMMatrixMultiplyKernel.configure ⟨32, 8, 64, .F16⟩ ⟨32, 32, 64, .F16⟩
        ⟨32, 8, 64, .F16⟩ 1).map (fun c => c.window.x.step) = .ok 8
    ∧ ((8 : ℤ) ≠ 32) := by decide

/-- C2 (amended): for every configuration with more than one output row and
narrow precision the selected column tile width is 8 (the canonical window
has dimension-0 step 8) and the row tile height is 4; each narrow-precision
kernel tile invocation writes exactly a 4-row by 8-column block of the
output: every changed address lies in that block, and when the row stride is
at least 8 every block cell receives the (optionally alpha-scaled)
accumulator value of its row and lane. -/
theorem narrow_tile_geometry (input0 input1 output : TensorDesc) (alpha : ℚ)
    (h0 : input0.dtype = .F16) (h1 : input1.dtype = .F16) (h2 : output.dtype = .F16)
    (hR : output.dim1 ≠ 1)
    (mtxA mtxB mem : Mem) (multiplyAlpha : Bool) (al : ℚ)
    (outStride aBase bBase outBase : ℤ) (numBx : ℕ) :
    (NEGEMMMatrixMultiplyKernel.configure input0 input1 output alpha).map
        (fun c => (c.window.x.step, c.window.y.step)) = .ok (8, 4)
    ∧ (∀ addr : ℤ,
        mmf16TileBody mtxA mtxB outStride numBx multiplyAlpha al aBase bBase outBase mem addr
          ≠ mem addr →
        ∃ r : ℕ, r < 4 ∧ ∃ e : ℕ, e < 8 ∧ addr = outBase + (r : ℤ) * outStride + (e : ℤ))
    ∧ (8 ≤ outStride → ∀ r : ℕ, r < 4 → ∀ e : ℕ, e < 8 →
        mmf16TileBody mtxA mtxB outStride numBx multiplyAlpha al aBase bBase outBase mem
            (outBase + (r : ℤ) * outStride + (e : ℤ))
          = (if multiplyAlpha
              then mmf16Accum mtxA mtxB aBase bBase ((numBx >>> 2) >>> 3) r e * al
              else mmf16Accum mtxA mtxB aBase bBase ((numBx >>> 2) >>> 3) r e)) := by
  refine ⟨?_, ?_, ?_⟩
  · simp only [NEGEMMMatrixMultiplyKernel.configure, h0, h1, h2, hR]
    norm_num [calculate_max_window, Except.map]
  · intro addr h
    rw [mmf16TileBody_unfold] at h
    by_cases c3 : outBase + 3 * outStride ≤ addr ∧ addr < outBase + 3 * outStride + (8 : ℕ)
    · exact ⟨3, by norm_num, (addr - (outBase + 3 * outStride)).toNat, by omega,
        by push_cast; omega⟩
    rw [storeVec_out _ _ _ _ _ c3] at h
    by_cases c2 : outBase + 2 * outStride ≤ addr ∧ addr < outBase + 2 * outStride + (8 : ℕ)
    · exact ⟨2, by norm_num, (addr - (outBase + 2 * outStride)).toNat, by omega,
        by push_cast; omega⟩
    rw [storeVec_out _ _ _ _ _ c2] at h
    by_cases c1 : outBase + 1 * outStride ≤ addr ∧ addr < outBase + 1 * outStride + (8 : ℕ)
    · exact ⟨1, by norm_num, (addr - (outBase + 1 * outStride)).toNat, by omega,
        by push_cast; omega⟩
    rw [storeVec_out _ _ _ _ _ c1] at h
    by_cases c0 : outBase + 0 * outStride ≤ addr ∧ addr < outBase + 0 * outStride + (8 : ℕ)
    · exact ⟨0, by norm_num, (addr - (outBase + 0 * outStride)).toNat, by omega,
        by push_cast; omega⟩
    rw [storeVec_out _ _ _ _ _ c0] at h
    exact absurd rfl h
  · intro hs r hr e he
    rw [mmf16TileBody_unfold]
    interval_cases r
    · rw [storeVec_out _ _ _ _ _ (by push_cast; omega),
        storeVec_out _ _ _ _ _ (by push_cast; omega),
        storeVec_out _ _ _ _ _ (by push_cast; omega),
        storeVec_at _ _ _ _ _ (by push_cast; omega)]
      have hl : (outBase + ((0 : ℕ) : ℤ) * outStride + (e : ℤ)
          - (outBase + 0 * outStride)).toNat = e := by push_cast; omega
      rw [hl]
      cases multiplyAlpha <;> simp
    · rw [storeVec_out _ _ _ _ _ (by push_cast; omega),
        storeVec_out _ _ _ _ _ (by push_cast; omega),
        storeVec_at _ _ _ _ _ (by push_cast; omega)]
      have hl : (outBase + ((1 : ℕ) : ℤ) * outStride + (e : ℤ)
          - (outBase + 1 * outStride)).toNat = e := by push_cast; omega
      rw [hl]
      cases multiplyAlpha <;> simp
    · rw [storeVec_out _ _ _ _ _ (by push_cast; omega),
        storeVec_at _ _ _ _ _ (by push_cast; omega)]
      have hl : (outBase + ((2 : ℕ) : ℤ) * outStride + (e : ℤ)
          - (outBase + 2 * outStride)).toNat = e := by push_cast; omega
      rw [hl]
      cases multiplyAlpha <;> simp
    · rw [storeVec_at _ _ _ _ _ (by push_cast; omega)]
      have hl : (outBase + ((3 : ℕ) : ℤ) * outStride + (e : ℤ)
          - (outBase + 3 * outStride)).toNat = e := by push_cast; omega
      rw [hl]
      cases multiplyAlpha <;> simp

/-- C2 amended-claim witness: a concrete 8-row narrow-precision
configuration receives the canonical window steps (8, 4). -/
theorem narrow_tile_geometry_spot :
    ((⟨32, 8, 64, .F16⟩ : TensorDesc).dtype = .F16
      ∧ (⟨32, 8, 64, .F16⟩ : TensorDesc).dim1 ≠ 1) ∧
    (NEGEMMMatrixMultiplyKernel.configure ⟨32, 8, 64, .F16⟩ ⟨32, 32, 64, .F16⟩
        ⟨32, 8, 64, .F16⟩ 2).map (fun c => (c.window.x.step, c.window.y.step)) = .ok (8, 4) :=
  ⟨⟨rfl, by norm_num⟩,
    (narrow_tile_geometry ⟨32, 8, 64, .F16⟩ ⟨32, 32, 64, .F16⟩ ⟨32, 8, 64, .F16⟩ 2
      rfl rfl rfl (by norm_num) (fun _ => 0) (fun _ => 0) (fun _ => 0) false 1
      8 0 0 0 0).1⟩

/-- C6 counterexample: a single-row narrow-precision configuration with
matching inner dimensions is accepted by configure (with the full-matrix
tile geometry) instead of failing with UnsupportedDataType. -/
theorem single_row_narrow_cex :
    (NEGEMMMatrixMultiplyKernel.configure ⟨8, 1, 16, .F16⟩ ⟨16, 8, 32, .F16⟩
        ⟨16, 1, 32, .F16⟩ 1).map (fun c => (c.window.x.step, c.window.y.step)) = .ok (8, 4)
    ∧ NEGEMMMatrixMultiplyKernel.configure ⟨8, 1, 16, .F16⟩ ⟨16, 8, 32, .F16⟩
        ⟨16, 1, 32, .F16⟩ 1 ≠ .error .UnsupportedDataType := by decide

/-- C6 (amended): the tile-geometry rule table is not exhaustive in the
claimed way: a configure call whose tensors all have the narrow precision
and whose output has exactly one row (with matching inner dimensions) does
not fail with UnsupportedDataType; it selects the full-matrix
narrow-precision geometry, a canonical window with dimension-0 step 8 and
dimension-1 step 4. -/
theorem single_row_narrow_accepted (input0 input1 output : TensorDesc) (alpha : ℚ)
    (h0 : input0.dtype = .F16) (h1 : input1.dtype = .F16) (h2 : output.dtype = .F16)
    (hR : output.dim1 = 1) (hK : input0.dim0 = input1.dim1) :
    (NEGEMMMatrixMultiplyKernel.configure input0 input1 output alpha).map
      (fun c => (c.window.x.step, c.window.y.step)) = .ok (8, 4) := by
  simp only [NEGEMMMatrixMultiplyKernel.configure, h0, h1, h2, hR, hK]
  simp +decide [calculate_max_window, Except.map]

/-- C6 amended-claim witness: a concrete single-row narrow-precision
configuration is accepted with steps (8, 4). -/
theorem single_row_narrow_accepted_spot :
    ((⟨8, 1, 16, .F16⟩ : TensorDesc).dtype = .F16
      ∧ (⟨16, 1, 32, .F16⟩ : TensorDesc).dim1 = 1
      ∧ (⟨8, 1, 16, .F16⟩ : TensorDesc).dim0 = (⟨16, 8, 32, .F16⟩ : TensorDesc).dim1) ∧
    (NEGEMMMatrixMultiplyKernel.configure ⟨8, 1, 16, .F16⟩ ⟨16, 8, 32, .F16⟩
        ⟨16, 1, 32, .F16⟩ 7).map (fun c => (c.window.x.step, c.window.y.step)) = .ok (8, 4) :=
  ⟨⟨rfl, rfl, rfl⟩,
    single_row_narrow_accepted ⟨8, 1, 16, .F16⟩ ⟨16, 8, 32, .F16⟩ ⟨16, 1, 32, .F16⟩ 7
      rfl rfl rfl rfl rfl⟩

end ArmCompute
